import Mathlib

/-!
Verification of the `online_adaptive_cbf` data-generation harness and robot
geometry against its specification.

The development shallowly embeds:
* `data_generation.py` — the per-run simulation loop of
  `single_agent_simulation` (exceptions become an `Option`/sum-like result,
  float arithmetic becomes exact rationals), the `generate_data` parameter
  grid and its batching;
* `robots/robot.py` — the sensing-footprint update, the braking-trajectory
  angular-rate law of `update_safety_area`, obstacle detection
  (`detect_unknown_obs`, `find_extreme_points`), with the external shapely
  geometry kernel (polygon intersection boundary extraction and the
  segment/disk `crosses` test) kept as an abstract oracle.

The control-step pipeline (`LocalTrackingController.control_step`, imported
from the `tracking` module which is not part of this repository's sources)
is modelled as an abstract per-step event trace: each step either returns
normally (yielding the post-step forward speed and the controller's per-step
safety-loss scalar), raises `CollisionError`, or raises some other
unexpected exception.
-/

/-! ### The per-run simulation loop of `single_agent_simulation` -/

/-- Outcome of one `tracking_controller.control_step()` call, as observed by
the loop in `single_agent_simulation` (data_generation.py, lines 67-84).
`ok ret speed sloss`: the call returns `ret`, after it the robot state has
forward speed `speed` (`robot.X[3]`) and the controller's per-step
safety-loss field reads `sloss`.  `collision`: the call raises
`CollisionError`.  `failure`: the call raises any other exception. -/
inductive StepEv : Type
  | ok (ret : Int) (speed : ℚ) (sloss : ℚ)
  | collision
  | failure
deriving DecidableEq

/-- The mutable accumulators of the simulation loop
(data_generation.py, lines 62-65). -/
structure RunAcc where
  unexpectedBeh : Int
  simTime : ℚ
  deadlockTime : ℚ
  safetyLoss : ℚ
deriving DecidableEq

/-- Initial accumulator values (data_generation.py, lines 62-65). -/
def initAcc : RunAcc := ⟨0, 0, 0, 0⟩

/-- One successful iteration of the loop body (data_generation.py,
lines 69-79): accumulate `ret`, advance `sim_time` by `dt`, add `dt` to
`deadlock_time` when the post-step forward speed is below the threshold,
and raise the running safety-loss maximum when exceeded. -/
def stepOk (dt thresh : ℚ) (acc : RunAcc) (ret : Int) (speed sloss : ℚ) : RunAcc :=
  { unexpectedBeh := acc.unexpectedBeh + ret
    simTime := acc.simTime + dt
    deadlockTime := if |speed| < thresh then acc.deadlockTime + dt else acc.deadlockTime
    safetyLoss := if sloss > acc.safetyLoss then sloss else acc.safetyLoss }

/-- The `for _ in range(int(max_sim_time / dt))` loop of
`single_agent_simulation` (data_generation.py, lines 67-84) over a list of
step events.  `some (true, acc)`: all steps completed.  `some (false, acc)`:
a `CollisionError` was caught by the inner handler (line 82), terminating
the run with the accumulators as of the previous completed step.  `none`:
an exception other than `CollisionError` escaped (no handler catches it). -/
def simLoop (dt thresh : ℚ) : List StepEv → RunAcc → Option (Bool × RunAcc)
  | [], acc => some (true, acc)
  | StepEv.collision :: _, acc => some (false, acc)
  | StepEv.failure :: _, _ => none
  | StepEv.ok r v s :: rest, acc => simLoop dt thresh rest (stepOk dt thresh acc r v s)

/-- Result of one call of `single_agent_simulation`: either the returned
9-tuple row, or an escaped exception (`exn`). -/
inductive SimResult : Type
  | row (distance velocity theta gamma1 gamma2 : ℝ)
      (noCollision : Bool) (safety_loss deadlock_time sim_time : ℚ)
  | exn

/-- Number of loop iterations `int(max_sim_time / dt)`
(data_generation.py, line 67); for the positive arguments used by the
harness, Python's truncation toward zero agrees with the floor. -/
def numSteps (max_sim_time : ℚ) : ℕ := ⌊max_sim_time / (1 / 20 : ℚ)⌋.toNat

/-- `single_agent_simulation` (data_generation.py, lines 26-91) with
`dt = 0.05 = 1/20` and the control-step pipeline abstracted to the event
trace `events`.  Only a `CollisionError` is caught (inner handler line 82,
outer handler line 89); any other exception escapes as `SimResult.exn`. -/
def single_agent_simulation (distance velocity theta gamma1 gamma2 : ℝ)
    (deadlock_threshold max_sim_time : ℚ) (events : ℕ → StepEv) : SimResult :=
  match simLoop (1 / 20) deadlock_threshold
      ((List.range (numSteps max_sim_time)).map events) initAcc with
  | some (cf, acc) =>
      SimResult.row distance velocity theta gamma1 gamma2 cf
        acc.safetyLoss acc.deadlockTime acc.simTime
  | none => SimResult.exn

/-- Accumulator state after `k` completed (non-raising) loop iterations,
for a run whose `k`-th control step returns `ret k` and leaves forward
speed `speed k` and per-step safety loss `sloss k`. -/
def accAfter (dt thresh : ℚ) (ret : ℕ → Int) (speed sloss : ℕ → ℚ) : ℕ → RunAcc
  | 0 => initAcc
  | k + 1 =>
      stepOk dt thresh (accAfter dt thresh ret speed sloss k) (ret k) (speed k) (sloss k)

/-! ### The parameter grid and batching of `generate_data` -/

noncomputable section

/-- `np.linspace(a, b, num)` with `endpoint=True` (the default used in
`generate_data`): `num` evenly spaced samples from `a` to `b`. -/
def linspace (a b : ℝ) (num : ℕ) : List ℝ :=
  if num = 0 then []
  else if num = 1 then [a]
  else (List.range num).map fun i : ℕ => a + (i : ℝ) * ((b - a) / ((num : ℝ) - 1))

/-- `distance_range` (data_generation.py, line 100). -/
def distance_range (n : ℕ) : List ℝ := linspace 0.35 3.0 n

/-- `velocity_range` (data_generation.py, line 101). -/
def velocity_range (n : ℕ) : List ℝ := linspace 0.01 1.0 n

/-- `theta_range` (data_generation.py, line 102). -/
def theta_range (n : ℕ) : List ℝ := linspace 0.001 (Real.pi / 2) n

/-- `gamma1_range` (data_generation.py, line 103). -/
def gamma1_range (n : ℕ) : List ℝ := linspace 0.005 0.99 n

/-- `gamma2_range` (data_generation.py, line 104). -/
def gamma2_range (n : ℕ) : List ℝ := linspace 0.005 0.99 n

/-- The five-fold nested list comprehension building `parameter_space`
(data_generation.py, lines 106-110), in the same enumeration order
(distance outermost, gamma2 innermost). -/
def parameter_space (n : ℕ) : List (ℝ × ℝ × ℝ × ℝ × ℝ) :=
  (distance_range n).flatMap fun d =>
    (velocity_range n).flatMap fun v =>
      (theta_range n).flatMap fun th =>
        (gamma1_range n).flatMap fun g1 =>
          (gamma2_range n).map fun g2 => (d, v, th, g1, g2)

end

/-- `total_batches` (data_generation.py, line 112) as a function of the
list length and the batch size. -/
def total_batches (len b : ℕ) : ℕ :=
  len / b + (if len % b ≠ 0 then 1 else 0)

/-- The slice `parameter_space[batch_index * batch_size :
(batch_index + 1) * batch_size]` (data_generation.py, line 115). -/
def batchSlice (l : List α) (b i : ℕ) : List α := (l.drop (i * b)).take b

/-- The sequence of batches dispatched by the loop over `batch_index`
(data_generation.py, lines 114-115). -/
def batches (l : List α) (b : ℕ) : List (List α) :=
  (List.range (total_batches l.length b)).map (batchSlice l b)

/-! ### Robot geometry (`robots/robot.py`)

Coordinates are exact reals (the idealization of the source's floats), so
the definitions in this part are not kernel-executable; each boundary case
is settled by explicit real-number reasoning instead of evaluation. -/

/-- A ground-truth circular obstacle `[x, y, r]` (robot.py, `unknown_obs`
rows). -/
structure Obstacle where
  x : ℝ
  y : ℝ
  r : ℝ

/-- The slice of `BaseRobot` state relevant to sensing and detection:
`X[0,0]`, `X[1,0]`, `X[2,0]`, `sensing_footprints`, `detected_points`,
`detected_obs` (robot.py, lines 50, 85-91).  The accumulated footprint is
the region of the plane covered so far (shapely polygons denote exactly
such regions). -/
structure RobotState where
  px : ℝ
  py : ℝ
  yaw : ℝ
  sensing_footprints : Set (ℝ × ℝ)
  detected_points : List (ℝ × ℝ)
  detected_obs : Option (ℝ × ℝ × ℝ)

noncomputable section

/-- `self.fov_angle = np.deg2rad(70)` (robot.py, line 58). -/
def fov_angle : ℝ := 70 * Real.pi / 180

/-- `self.cam_range = 3.0` (robot.py, line 59). -/
def cam_range : ℝ := 3.0

/-- `calculate_fov_points` (robot.py, lines 278-290): endpoints of the two
field-of-view boundary rays. -/
def calculate_fov_points (st : RobotState) : (ℝ × ℝ) × (ℝ × ℝ) :=
  let angle_left := st.yaw - fov_angle / 2
  let angle_right := st.yaw + fov_angle / 2
  ((st.px + cam_range * Real.cos angle_left, st.py + cam_range * Real.sin angle_left),
   (st.px + cam_range * Real.cos angle_right, st.py + cam_range * Real.sin angle_right))

/-- The filled triangle `Polygon([robot_position, fov_left, fov_right])`
(robot.py, line 158): the convex hull of its three vertices. -/
def fovTriangle (st : RobotState) : Set (ℝ × ℝ) :=
  convexHull ℝ {(st.px, st.py), (calculate_fov_points st).1, (calculate_fov_points st).2}

/-- `update_sensing_footprints` (robot.py, lines 155-161): union the current
FOV triangle into the accumulated sensed region. -/
def update_sensing_footprints (st : RobotState) : RobotState :=
  { st with sensing_footprints := st.sensing_footprints ∪ fovTriangle st }

/-- `np.sign` on reals. -/
def np_sign (x : ℝ) : ℝ := if 0 < x then 1 else if x < 0 then -1 else 0

/-- The angular rate applied at braking-trajectory time `t` in
`update_safety_area` (robot.py, lines 182-184):
`omega_current = omega - np.sign(omega) * max_ang_decel * t`, reset to `0`
when its sign differs from the sign of `omega`. -/
def omega_current (omega max_ang_decel t : ℝ) : ℝ :=
  let raw := omega - np_sign omega * max_ang_decel * t
  if np_sign raw ≠ np_sign omega then 0 else raw

/-- The two-argument arctangent `np.arctan2 y x`, i.e. the argument of the
complex number `x + y*i`, valued in `(-π, π]`. -/
def atan2 (y x : ℝ) : ℝ := Complex.arg ⟨x, y⟩

/-- Python's float modulo `x % m` for `m > 0`: `x - m * ⌊x / m⌋`. -/
def rmod (x m : ℝ) : ℝ := x - m * (⌊x / m⌋ : ℤ)

/-- The angle normalization `(angles + np.pi) % (2 * np.pi) - np.pi`
applied in `find_extreme_points` (robot.py, line 219). -/
def normalize_angle (a : ℝ) : ℝ := rmod (a + Real.pi) (2 * Real.pi) - Real.pi

/-- Modelled from the spec: normalization of an angle to the interval
`(-π, π]` (the spec's "normalized to (−π, π]"), i.e. the representative of
`a` modulo `2π` lying in `(-π, π]`.  Stated for comparison with the
source's `normalize_angle`. -/
def normalize_angle_spec (a : ℝ) : ℝ := Real.pi - rmod (Real.pi - a) (2 * Real.pi)

/-- `np.argmin` accumulator: scan the remaining list keeping the index and
value of the first minimum seen so far (`i` is the index of the head of
the remaining list). -/
def argminPair (i : ℕ) (best : ℕ × ℝ) : List ℝ → ℕ × ℝ
  | [] => best
  | a :: rest => if a < best.2 then argminPair (i + 1) (i, a) rest
                 else argminPair (i + 1) best rest

/-- `np.argmin`: index of the first occurrence of the minimum (0 on the
empty list). -/
def argminIdx : List ℝ → ℕ
  | [] => 0
  | a :: rest => (argminPair 1 (0, a) rest).1

/-- `np.argmax` accumulator, symmetric to `argminPair`. -/
def argmaxPair (i : ℕ) (best : ℕ × ℝ) : List ℝ → ℕ × ℝ
  | [] => best
  | a :: rest => if best.2 < a then argmaxPair (i + 1) (i, a) rest
                 else argmaxPair (i + 1) best rest

/-- `np.argmax`: index of the first occurrence of the maximum (0 on the
empty list). -/
def argmaxIdx : List ℝ → ℕ
  | [] => 0
  | a :: rest => (argmaxPair 1 (0, a) rest).1

/-- The signed angle, relative to the robot's heading, of the vector from
the robot to `p`, as computed in `find_extreme_points` (robot.py,
lines 215-219): difference of two-argument arctangents, normalized. -/
def point_angle (st : RobotState) (p : ℝ × ℝ) : ℝ :=
  normalize_angle
    (atan2 (p.2 - st.py) (p.1 - st.px) - atan2 (Real.sin st.yaw) (Real.cos st.yaw))

/-- `find_extreme_points` (robot.py, lines 210-228): the angularly
left-most (`argmin`) and right-most (`argmax`) detected points. -/
def find_extreme_points (st : RobotState) (detected_points : List (ℝ × ℝ)) :
    (ℝ × ℝ) × (ℝ × ℝ) :=
  let angles := detected_points.map (point_angle st)
  (detected_points.getD (argminIdx angles) (0, 0),
   detected_points.getD (argmaxIdx angles) (0, 0))

/-- Modelled from the spec: `find_extreme_points` as the claim describes
it, with the angles "normalized to the interval (−π, π]" instead of the
source's normalization.  Stated for comparison with the source's
`find_extreme_points`. -/
def find_extreme_points_spec (st : RobotState) (detected_points : List (ℝ × ℝ)) :
    (ℝ × ℝ) × (ℝ × ℝ) :=
  let angles := detected_points.map fun p =>
    normalize_angle_spec
      (atan2 (p.2 - st.py) (p.1 - st.px) - atan2 (Real.sin st.yaw) (Real.cos st.yaw))
  (detected_points.getD (argminIdx angles) (0, 0),
   detected_points.getD (argmaxIdx angles) (0, 0))

/-- The obstacle estimate built from the detected points in
`detect_unknown_obs` (robot.py, lines 269-275): center is the midpoint of
the two extreme points, radius is half their Euclidean distance. -/
def obstacle_estimate (st : RobotState) (pts : List (ℝ × ℝ)) : ℝ × ℝ × ℝ :=
  let ex := find_extreme_points st pts
  ((ex.1.1 + ex.2.1) / 2, (ex.1.2 + ex.2.2) / 2,
   Real.sqrt ((ex.2.1 - ex.1.1) ^ 2 + (ex.2.2 - ex.1.2) ^ 2) / 2)

/-- Abstract interface to the shapely operations used by
`detect_unknown_obs` (robot.py, lines 239-260): `boundary_points S o m` is
the list of discrete exterior coordinates of
`S.intersection(Point(o.x, o.y).buffer(o.r - m))` (empty when the
intersection is neither a polygon nor a multipolygon), and
`crosses q p o m` is `LineString([q, p]).crosses(Point(o.x, o.y)
.buffer(o.r - m))`. -/
structure ShapelyOracle where
  boundary_points : Set (ℝ × ℝ) → Obstacle → ℝ → List (ℝ × ℝ)
  crosses : (ℝ × ℝ) → (ℝ × ℝ) → Obstacle → ℝ → Bool

/-- The detected points one obstacle contributes (robot.py, lines 239-261):
boundary points of the footprint/disk intersection, keeping only the
front-facing ones (those whose sight line does not cross the disk). -/
def front_points (K : ShapelyOracle) (st : RobotState) (o : Obstacle) (margin : ℝ) :
    List (ℝ × ℝ) :=
  (K.boundary_points st.sensing_footprints o margin).filter
    fun p => !(K.crosses (st.px, st.py) p o margin)

/-- The scan over the distance-sorted obstacle list (robot.py,
lines 238-264): since the loop breaks as soon as `detected_points` is
non-empty and leaves it empty otherwise, the accumulated points equal the
contribution of the first obstacle with a non-empty contribution. -/
def first_detection (K : ShapelyOracle) (st : RobotState) (margin : ℝ) :
    List Obstacle → List (ℝ × ℝ)
  | [] => []
  | o :: rest =>
      let pts := front_points K st o margin
      if pts.isEmpty then first_detection K st margin rest else pts

/-- Euclidean distance from the robot position to an obstacle center,
the sort key `np.linalg.norm(np.array(obs[0:2]) - self.X[0:2])`
(robot.py, line 237). -/
def obs_dist (st : RobotState) (o : Obstacle) : ℝ :=
  Real.sqrt ((o.x - st.px) ^ 2 + (o.y - st.py) ^ 2)

/-- `detect_unknown_obs` (robot.py, lines 230-276).  The Python `None`
argument becomes `none`; the returned `[]` / `[cx, cy, r]` of the source
becomes `none` / `some (cx, cy, r)`.  The function returns the detection
result together with the updated robot state. -/
def detect_unknown_obs (K : ShapelyOracle) (st : RobotState)
    (unknown_obs : Option (List Obstacle)) (obs_margin : ℝ) :
    Option (ℝ × ℝ × ℝ) × RobotState :=
  match unknown_obs with
  | none => (none, st)
  | some obsList =>
      let sorted_unknown_obs :=
        obsList.insertionSort fun o₁ o₂ => obs_dist st o₁ ≤ obs_dist st o₂
      let pts := first_detection K st obs_margin sorted_unknown_obs
      if pts.isEmpty then
        (none, { st with detected_points := [], detected_obs := none })
      else
        let est := obstacle_estimate st pts
        (some est, { st with detected_points := pts, detected_obs := some est })

end

/-! ### Basic facts about `np_sign` -/

theorem np_sign_of_pos {x : ℝ} (h : 0 < x) : np_sign x = 1 := by
  unfold np_sign; rw [if_pos h]

theorem np_sign_of_neg {x : ℝ} (h : x < 0) : np_sign x = -1 := by
  unfold np_sign; rw [if_neg (by linarith), if_pos h]

theorem np_sign_ne_one {x : ℝ} (h : ¬ 0 < x) : np_sign x ≠ 1 := by
  unfold np_sign
  rw [if_neg h]
  split <;> norm_num

theorem np_sign_ne_neg_one {x : ℝ} (h : ¬ x < 0) : np_sign x ≠ -1 := by
  unfold np_sign
  rcases lt_or_ge 0 x with hx | hx
  · rw [if_pos hx]; norm_num
  · rw [if_neg (by linarith), if_neg h]; norm_num

/-- C10: if `detect_unknown_obs` is called with `unknown_obs = None`, it
returns the empty detection immediately and leaves both
`self.detected_points` and `self.detected_obs` exactly as they were before
the call, so a stale detected-obstacle estimate from an earlier step is
not cleared in this case. -/
theorem c10_detect_none_is_frame_preserving (K : ShapelyOracle) (st : RobotState)
    (m : ℝ) :
    detect_unknown_obs K st none m = (none, st) ∧
    (detect_unknown_obs K st none m).2.detected_points = st.detected_points ∧
    (detect_unknown_obs K st none m).2.detected_obs = st.detected_obs :=
  ⟨rfl, rfl, rfl⟩

/-- C5: `update_sensing_footprints` replaces the sensed footprint by its
union with the current FOV triangle, so the footprint after the call
contains the footprint before the call, and calling it twice at the same
pose yields the same footprint as calling it once. -/
theorem c5_update_sensing_footprints_monotone_idempotent (st : RobotState) :
    st.sensing_footprints ⊆ (update_sensing_footprints st).sensing_footprints ∧
    update_sensing_footprints (update_sensing_footprints st) =
      update_sensing_footprints st := by
  refine ⟨Set.subset_union_left, ?_⟩
  obtain ⟨px, py, yaw, S, dp, dob⟩ := st
  have h : fovTriangle ⟨px, py, yaw,
      S ∪ fovTriangle ⟨px, py, yaw, S, dp, dob⟩, dp, dob⟩ =
      fovTriangle ⟨px, py, yaw, S, dp, dob⟩ := rfl
  simp only [update_sensing_footprints]
  rw [h, Set.union_assoc, Set.union_self]

/-- C8: in `update_safety_area` with nonzero commanded angular velocity,
the angular rate applied at trajectory time `t` decays linearly as
`omega - sign(omega) * max_ang_decel * t` clamped at zero once its sign
would differ from `sign(omega)` (the positive case is exactly
`max (omega - c*t) 0`, the negative case `min (omega + c*t) 0`), so the
applied rate is either zero or has the same sign as the initial `omega`,
never the opposite sign. -/
theorem c8_omega_decay_never_flips_sign (omega c t : ℝ) (h : omega ≠ 0) :
    (0 < omega → omega_current omega c t = max (omega - c * t) 0) ∧
    (omega < 0 → omega_current omega c t = min (omega + c * t) 0) ∧
    (omega_current omega c t = 0 ∨
      np_sign (omega_current omega c t) = np_sign omega) ∧
    0 ≤ omega_current omega c t * omega := by
  have key_pos : ∀ w : ℝ, 0 < w → omega_current w c t = max (w - c * t) 0 := by
    intro w hw
    unfold omega_current
    rw [np_sign_of_pos hw]
    by_cases hr : 0 < w - 1 * c * t
    · rw [if_neg (not_not_intro (np_sign_of_pos hr)),
        max_eq_left (by linarith)]
      ring
    · rw [if_pos (np_sign_ne_one hr), max_eq_right (by linarith)]
  have key_neg : ∀ w : ℝ, w < 0 → omega_current w c t = min (w + c * t) 0 := by
    intro w hw
    unfold omega_current
    rw [np_sign_of_neg hw]
    by_cases hr : w - -1 * c * t < 0
    · rw [if_neg (not_not_intro (np_sign_of_neg hr)),
        min_eq_left (by linarith)]
      ring
    · rw [if_pos (np_sign_ne_neg_one hr), min_eq_right (by linarith)]
  have key_sign : omega_current omega c t = 0 ∨
      np_sign (omega_current omega c t) = np_sign omega := by
    rcases h.lt_or_lt with hneg | hpos
    · rw [key_neg omega hneg]
      by_cases hx : omega + c * t < 0
      · right
        rw [min_eq_left hx.le, np_sign_of_neg hx, np_sign_of_neg hneg]
      · left
        rw [min_eq_right (not_lt.mp hx)]
    · rw [key_pos omega hpos]
      by_cases hx : 0 < omega - c * t
      · right
        rw [max_eq_left (by linarith), np_sign_of_pos hx, np_sign_of_pos hpos]
      · left
        rw [max_eq_right (by linarith)]
  refine ⟨key_pos omega, key_neg omega, key_sign, ?_⟩
  rcases key_sign with hz | hs
  · rw [hz, zero_mul]
  · rcases h.lt_or_lt with hneg | hpos
    · rw [np_sign_of_neg hneg] at hs
      by_cases hv : omega_current omega c t < 0
      · exact (mul_pos_of_neg_of_neg hv hneg).le
      · exact absurd hs (np_sign_ne_neg_one hv)
    · rw [np_sign_of_pos hpos] at hs
      by_cases hv : 0 < omega_current omega c t
      · exact (mul_pos hv hpos).le
      · exact absurd hs (np_sign_ne_one hv)

theorem c8_omega_decay_witness :
    ((0:ℝ) < 1 → omega_current 1 1 3 = max (1 - 1 * 3) 0) ∧
    ((1:ℝ) < 0 → omega_current 1 1 3 = min (1 + 1 * 3) 0) ∧
    (omega_current 1 1 3 = 0 ∨ np_sign (omega_current 1 1 3) = np_sign 1) ∧
    0 ≤ omega_current 1 1 3 * 1 :=
  c8_omega_decay_never_flips_sign 1 1 3 one_ne_zero

/-! ### Invariants of the simulation loop -/

theorem accAfter_simTime (dt th : ℚ) (ret : ℕ → Int) (sp sl : ℕ → ℚ) :
    ∀ k : ℕ, (accAfter dt th ret sp sl k).simTime = k * dt := by
  intro k
  induction k with
  | zero => simp [accAfter, initAcc]
  | succ k ih =>
      simp only [accAfter, stepOk, ih]
      push_cast
      ring

theorem accAfter_deadlock_mul (dt th : ℚ) (ret : ℕ → Int) (sp sl : ℕ → ℚ) :
    ∀ k : ℕ, ∃ m : ℕ, m ≤ k ∧
      (accAfter dt th ret sp sl k).deadlockTime = m * dt := by
  intro k
  induction k with
  | zero => exact ⟨0, le_refl 0, by simp [accAfter, initAcc]⟩
  | succ k ih =>
      obtain ⟨m, hm, hdl⟩ := ih
      by_cases hs : |sp k| < th
      · refine ⟨m + 1, by omega, ?_⟩
        simp only [accAfter, stepOk, if_pos hs, hdl]
        push_cast
        ring
      · exact ⟨m, by omega, by simp only [accAfter, stepOk, if_neg hs, hdl]⟩

theorem simLoop_row_inv (th : ℚ) :
    ∀ (l : List StepEv) (acc : RunAcc) (cf : Bool) (acc' : RunAcc),
      (acc.deadlockTime ≤ acc.simTime ∧
        ∃ a b : ℕ, acc.deadlockTime = a * (1/20) ∧ acc.simTime = b * (1/20)) →
      simLoop (1/20) th l acc = some (cf, acc') →
      acc'.deadlockTime ≤ acc'.simTime ∧
        ∃ a b : ℕ, acc'.deadlockTime = a * (1/20) ∧ acc'.simTime = b * (1/20) := by
  intro l
  induction l with
  | nil =>
      intro acc cf acc' hinv heq
      simp only [simLoop, Option.some.injEq, Prod.mk.injEq] at heq
      obtain ⟨-, rfl⟩ := heq
      exact hinv
  | cons e rest ih =>
      intro acc cf acc' hinv heq
      cases e with
      | collision =>
          simp only [simLoop, Option.some.injEq, Prod.mk.injEq] at heq
          obtain ⟨-, rfl⟩ := heq
          exact hinv
      | failure => simp [simLoop] at heq
      | ok r v s =>
          simp only [simLoop] at heq
          refine ih (stepOk (1/20) th acc r v s) cf acc' ?_ heq
          obtain ⟨hle, a, b, hdl, hst⟩ := hinv
          constructor
          · simp only [stepOk]
            split <;> linarith
          · simp only [stepOk]
            split
            · exact ⟨a + 1, b + 1, by push_cast; linarith, by push_cast; linarith⟩
            · exact ⟨a, b + 1, hdl, by push_cast; linarith⟩

/-- C9: in every run, `deadlock_time` starts at `0`, increases by exactly
`dt = 1/20` in a completed step iff the absolute forward speed is below
the deadlock threshold at that step, while `sim_time` increases by `dt` at
every completed step; hence at every step, and in the accumulators of any
returned row, `deadlock_time ≤ sim_time` and (in exact arithmetic) both
are integer multiples of `dt`. -/
theorem c9_deadlock_le_sim_time (th : ℚ) (ret : ℕ → Int) (sp sl : ℕ → ℚ) :
    (accAfter (1/20) th ret sp sl 0).deadlockTime = 0 ∧
    (∀ k : ℕ, (accAfter (1/20) th ret sp sl k).simTime = k * (1/20)) ∧
    (∀ k : ℕ,
      ((accAfter (1/20) th ret sp sl (k+1)).deadlockTime =
          (accAfter (1/20) th ret sp sl k).deadlockTime + 1/20 ↔ |sp k| < th) ∧
      (¬ |sp k| < th →
        (accAfter (1/20) th ret sp sl (k+1)).deadlockTime =
          (accAfter (1/20) th ret sp sl k).deadlockTime)) ∧
    (∀ k : ℕ, ∃ m : ℕ, m ≤ k ∧
      (accAfter (1/20) th ret sp sl k).deadlockTime = m * (1/20)) ∧
    (∀ k : ℕ, (accAfter (1/20) th ret sp sl k).deadlockTime ≤
      (accAfter (1/20) th ret sp sl k).simTime) ∧
    (∀ (l : List StepEv) (cf : Bool) (acc : RunAcc),
      simLoop (1/20) th l initAcc = some (cf, acc) →
      acc.deadlockTime ≤ acc.simTime ∧
        ∃ a b : ℕ, acc.deadlockTime = a * (1/20) ∧ acc.simTime = b * (1/20)) := by
  refine ⟨by simp [accAfter, initAcc], accAfter_simTime _ _ _ _ _, ?_, ?_, ?_, ?_⟩
  · intro k
    constructor
    · constructor
      · intro heq
        by_contra hs
        have : (accAfter (1/20) th ret sp sl (k+1)).deadlockTime =
            (accAfter (1/20) th ret sp sl k).deadlockTime := by
          simp only [accAfter, stepOk, if_neg hs]
        rw [this] at heq
        linarith
      · intro hs
        simp only [accAfter, stepOk, if_pos hs]
    · intro hs
      simp only [accAfter, stepOk, if_neg hs]
  · exact accAfter_deadlock_mul _ _ _ _ _
  · intro k
    obtain ⟨m, hm, hdl⟩ := accAfter_deadlock_mul (1/20) th ret sp sl k
    rw [hdl, accAfter_simTime]
    have : (m : ℚ) ≤ (k : ℚ) := by exact_mod_cast hm
    nlinarith
  · intro l cf acc heq
    exact simLoop_row_inv th l initAcc cf acc
      ⟨le_refl 0, 0, 0, by simp [initAcc], by simp [initAcc]⟩ heq

/-- C3: within one run the run-level `safety_loss` is non-negative, never
decreases from one step to the next, and (per-step safety-loss values
being non-negative) after every completed step equals the maximum over all
steps so far of the controller's per-step safety-loss value. -/
theorem c3_safety_loss_running_max (th : ℚ) (ret : ℕ → Int) (sp sl : ℕ → ℚ)
    (hnn : ∀ i, 0 ≤ sl i) :
    (∀ k : ℕ, 0 ≤ (accAfter (1/20) th ret sp sl k).safetyLoss) ∧
    (∀ k : ℕ, (accAfter (1/20) th ret sp sl k).safetyLoss ≤
      (accAfter (1/20) th ret sp sl (k+1)).safetyLoss) ∧
    (∀ k : ℕ, ∀ i < k, sl i ≤ (accAfter (1/20) th ret sp sl k).safetyLoss) ∧
    (∀ k : ℕ, 1 ≤ k →
      ∃ i < k, (accAfter (1/20) th ret sp sl k).safetyLoss = sl i) := by
  have hmono : ∀ k : ℕ, (accAfter (1/20) th ret sp sl k).safetyLoss ≤
      (accAfter (1/20) th ret sp sl (k+1)).safetyLoss := by
    intro k
    simp only [accAfter, stepOk]
    split
    · linarith [lt_of_not_ge (fun hge => absurd ‹sl k > _› (not_lt.mpr hge))]
    · exact le_refl _
  have hnonneg : ∀ k : ℕ, 0 ≤ (accAfter (1/20) th ret sp sl k).safetyLoss := by
    intro k
    induction k with
    | zero => simp [accAfter, initAcc]
    | succ k ih => exact le_trans ih (hmono k)
  have hub : ∀ k : ℕ, ∀ i < k, sl i ≤ (accAfter (1/20) th ret sp sl k).safetyLoss := by
    intro k
    induction k with
    | zero => intro i hi; omega
    | succ k ih =>
        intro i hi
        rcases Nat.lt_succ_iff_lt_or_eq.mp hi with hik | rfl
        · exact le_trans (ih i hik) (hmono k)
        · simp only [accAfter, stepOk]
          split
          · exact le_refl _
          · exact le_of_not_gt (by assumption)
  refine ⟨hnonneg, hmono, hub, ?_⟩
  intro k hk
  induction k with
  | zero => omega
  | succ k ih =>
      rcases Nat.eq_zero_or_pos k with rfl | hkpos
      · refine ⟨0, Nat.zero_lt_one, ?_⟩
        simp only [accAfter, stepOk, initAcc]
        split
        · rfl
        · exact le_antisymm (le_of_not_gt (by assumption)) (hnn 0) |>.symm ▸ rfl
      · obtain ⟨i, hik, hval⟩ := ih hkpos
        simp only [accAfter, stepOk]
        split
        · exact ⟨k, Nat.lt_succ_self k, rfl⟩
        · exact ⟨i, Nat.lt_succ_of_lt hik, hval⟩

theorem simLoop_okPrefix (dt th : ℚ) (events : ℕ → StepEv) (l₂ : List StepEv) :
    ∀ (k m : ℕ) (acc : RunAcc),
      (∀ i, m ≤ i → i < m + k → ∃ r v s, events i = StepEv.ok r v s) →
      ∃ acc' : RunAcc,
        simLoop dt th ((List.range' m k).map events ++ l₂) acc =
          simLoop dt th l₂ acc' ∧
        acc'.simTime = acc.simTime + k * dt := by
  intro k
  induction k with
  | zero => exact fun m acc _ => ⟨acc, rfl, by push_cast; ring⟩
  | succ k ih =>
      intro m acc hok
      obtain ⟨r, v, s, hev⟩ := hok m (le_refl m) (by omega)
      have hrest : ∀ i, m + 1 ≤ i → i < m + 1 + k → ∃ r v s, events i = StepEv.ok r v s :=
        fun i h1 h2 => hok i (by omega) (by omega)
      obtain ⟨acc', h1, h2⟩ := ih (m + 1) (stepOk dt th acc r v s) hrest
      refine ⟨acc', ?_, ?_⟩
      · rw [List.range'_succ, List.map_cons, List.cons_append, hev]
        exact h1
      · rw [h2]
        simp only [stepOk]
        push_cast
        ring

theorem numSteps_cast_le {maxT : ℚ} {k : ℕ} (hk : k < numSteps maxT) :
    (numSteps maxT : ℚ) * (1 / 20) ≤ maxT := by
  have hfl : (0:ℤ) ≤ ⌊maxT / (1 / 20 : ℚ)⌋ := by
    by_contra hneg
    push_neg at hneg
    have : numSteps maxT = 0 := by
      unfold numSteps
      omega
    omega
  have hcast : ((numSteps maxT : ℕ) : ℚ) = (⌊maxT / (1 / 20 : ℚ)⌋ : ℚ) := by
    unfold numSteps
    have := Int.toNat_of_nonneg hfl
    exact_mod_cast congrArg (fun z : ℤ => (z : ℚ)) this
  rw [hcast]
  have hle : ((⌊maxT / (1 / 20 : ℚ)⌋ : ℤ) : ℚ) ≤ maxT / (1 / 20) := Int.floor_le _
  have h20 : maxT / (1 / 20 : ℚ) = 20 * maxT := by ring
  linarith [h20.le, h20.ge]

/-- C4: `single_agent_simulation` returns `collision_free = True` exactly
when all `int(max_sim_time/dt)` control steps complete without a
`CollisionError`, and then the returned `sim_time` is
`int(max_sim_time/dt) * dt`; when a `CollisionError` is raised at step `k`,
the run returns `collision_free = False` with `sim_time = k * dt <
max_sim_time` (the time accumulated before the colliding step), and the
exception never crosses the run boundary (the result is a row either way).
The hypothesis restricts attention to runs whose only failure mode is
`CollisionError`, the case this claim describes. -/
theorem c4_collision_free_iff_full_horizon (d v th g1 g2 : ℝ) (dth maxT : ℚ)
    (events : ℕ → StepEv)
    (hnf : ∀ i < numSteps maxT, events i ≠ StepEv.failure) :
    ((∀ i < numSteps maxT, events i ≠ StepEv.collision) ∧
      ∃ sl dl, single_agent_simulation d v th g1 g2 dth maxT events =
        SimResult.row d v th g1 g2 true sl dl ((numSteps maxT : ℚ) * (1 / 20))) ∨
    (∃ k < numSteps maxT, events k = StepEv.collision ∧
      (∀ i < k, events i ≠ StepEv.collision) ∧
      (k : ℚ) * (1 / 20) < maxT ∧
      ∃ sl dl, single_agent_simulation d v th g1 g2 dth maxT events =
        SimResult.row d v th g1 g2 false sl dl ((k : ℚ) * (1 / 20))) := by
  by_cases hcol : ∃ k, events k = StepEv.collision ∧ k < numSteps maxT
  · right
    obtain ⟨hkcol, hkn⟩ := Nat.find_spec hcol
    set k := Nat.find hcol with hkdef
    have hmin : ∀ i < k, events i ≠ StepEv.collision := by
      intro i hi hc
      exact Nat.find_min hcol hi ⟨hc, lt_trans hi hkn⟩
    have hsplit : List.range (numSteps maxT) =
        List.range' 0 k ++ (k :: List.range' (k + 1) (numSteps maxT - k - 1)) := by
      rw [List.range_eq_range']
      have h1 : List.range' 0 k ++ List.range' (0 + k) (numSteps maxT - k) =
          List.range' 0 (numSteps maxT - k + k) := List.range'_append_1 0 k _
      have h2 : numSteps maxT - k + k = numSteps maxT := by omega
      have h3 : numSteps maxT - k = (numSteps maxT - k - 1) + 1 := by omega
      rw [h2] at h1
      rw [← h1, h3, List.range'_succ]
      simp
    have hok : ∀ i, 0 ≤ i → i < 0 + k → ∃ r vv s, events i = StepEv.ok r vv s := by
      intro i _ hi
      have hi' : i < k := by omega
      rcases hev : events i with _ | _ | _
      · exact ⟨_, _, _, rfl⟩
      · exact absurd hev (hmin i hi')
      · exact absurd hev (hnf i (lt_trans hi' hkn))
    obtain ⟨acc', hsim, hst⟩ := simLoop_okPrefix (1/20) dth events
      (events k :: (List.range' (k + 1) (numSteps maxT - k - 1)).map events) k 0 initAcc hok
    refine ⟨k, hkn, hkcol, hmin, ?_, acc'.safetyLoss, acc'.deadlockTime, ?_⟩
    · have h1 : ((k:ℚ) + 1) * (1 / 20) ≤ maxT := by
        have := numSteps_cast_le hkn
        have hcast : (k : ℚ) + 1 ≤ (numSteps maxT : ℚ) := by exact_mod_cast hkn
        nlinarith
      linarith
    · unfold single_agent_simulation
      rw [hsplit, List.map_append, List.map_cons, hsim, hkcol]
      have hst' : acc'.simTime = (k : ℚ) * (1 / 20) := by
        rw [hst]
        simp [initAcc]
      simp [simLoop, hst']
  · left
    push_neg at hcol
    have hnc : ∀ i < numSteps maxT, events i ≠ StepEv.collision := by
      intro i hi hc
      exact absurd hi (not_lt.mpr (hcol i hc))
    have hok : ∀ i, 0 ≤ i → i < 0 + numSteps maxT → ∃ r vv s, events i = StepEv.ok r vv s := by
      intro i _ hi
      have hi' : i < numSteps maxT := by omega
      rcases hev : events i with _ | _ | _
      · exact ⟨_, _, _, rfl⟩
      · exact absurd hev (hnc i hi')
      · exact absurd hev (hnf i hi')
    obtain ⟨acc', hsim, hst⟩ := simLoop_okPrefix (1/20) dth events [] (numSteps maxT) 0
      initAcc hok
    refine ⟨hnc, acc'.safetyLoss, acc'.deadlockTime, ?_⟩
    unfold single_agent_simulation
    rw [List.range_eq_range', ← List.append_nil ((List.range' 0 (numSteps maxT)).map events),
      hsim]
    have hst' : acc'.simTime = (numSteps maxT : ℚ) * (1 / 20) := by
      rw [hst]
      simp [initAcc]
    simp [simLoop, hst']

theorem c4_collision_free_witness :
    ((∀ i < numSteps 5, (fun _ : ℕ => StepEv.ok 0 0 0) i ≠ StepEv.collision) ∧
      ∃ sl dl, single_agent_simulation 1 2 3 4 5 (1/10) 5 (fun _ => StepEv.ok 0 0 0) =
        SimResult.row 1 2 3 4 5 true sl dl ((numSteps 5 : ℚ) * (1 / 20))) ∨
    (∃ k < numSteps 5, (fun _ : ℕ => StepEv.ok 0 0 0) k = StepEv.collision ∧
      (∀ i < k, (fun _ : ℕ => StepEv.ok 0 0 0) i ≠ StepEv.collision) ∧
      (k : ℚ) * (1 / 20) < 5 ∧
      ∃ sl dl, single_agent_simulation 1 2 3 4 5 (1/10) 5 (fun _ => StepEv.ok 0 0 0) =
        SimResult.row 1 2 3 4 5 false sl dl ((k : ℚ) * (1 / 20))) :=
  c4_collision_free_iff_full_horizon 1 2 3 4 5 (1/10) 5 (fun _ => StepEv.ok 0 0 0)
    (fun _ _ h => by simp at h)

theorem range_split {n k : ℕ} (hk : k < n) :
    List.range n = List.range' 0 k ++ (k :: List.range' (k + 1) (n - k - 1)) := by
  rw [List.range_eq_range']
  have h1 : List.range' 0 k ++ List.range' (0 + k) (n - k) =
      List.range' 0 (n - k + k) := List.range'_append_1 0 k _
  have h2 : n - k + k = n := by omega
  have h3 : n - k = (n - k - 1) + 1 := by omega
  rw [h2] at h1
  rw [← h1, h3, List.range'_succ]
  simp

/-- C1 (amended): inside `single_agent_simulation` only `CollisionError` is
caught.  A `CollisionError` raised at step `k` is caught within the run and
yields the conservative row (`collision_free = false`) carrying the
configuration's parameters; any other exception raised during a control
step propagates out of `single_agent_simulation` (and hence out of the
worker), producing no row for that configuration. -/
theorem c1_only_collision_error_is_caught (d v th g1 g2 : ℝ) (dth maxT : ℚ)
    (events : ℕ → StepEv) :
    (∀ k < numSteps maxT, events k = StepEv.failure →
      (∀ i < k, ∃ r vv s, events i = StepEv.ok r vv s) →
      single_agent_simulation d v th g1 g2 dth maxT events = SimResult.exn) ∧
    (∀ k < numSteps maxT, events k = StepEv.collision →
      (∀ i < k, ∃ r vv s, events i = StepEv.ok r vv s) →
      ∃ sl dl, single_agent_simulation d v th g1 g2 dth maxT events =
        SimResult.row d v th g1 g2 false sl dl ((k : ℚ) * (1 / 20))) := by
  constructor
  · intro k hk hfail hpre
    obtain ⟨acc', hsim, _⟩ := simLoop_okPrefix (1/20) dth events
      (events k :: (List.range' (k + 1) (numSteps maxT - k - 1)).map events) k 0 initAcc
      (fun i _ hi => hpre i (by omega))
    unfold single_agent_simulation
    rw [range_split hk, List.map_append, List.map_cons, hsim, hfail]
    rfl
  · intro k hk hcolk hpre
    obtain ⟨acc', hsim, hst⟩ := simLoop_okPrefix (1/20) dth events
      (events k :: (List.range' (k + 1) (numSteps maxT - k - 1)).map events) k 0 initAcc
      (fun i _ hi => hpre i (by omega))
    refine ⟨acc'.safetyLoss, acc'.deadlockTime, ?_⟩
    unfold single_agent_simulation
    rw [range_split hk, List.map_append, List.map_cons, hsim, hcolk]
    have hst' : acc'.simTime = (k : ℚ) * (1 / 20) := by
      rw [hst]
      simp [initAcc]
    simp [simLoop, hst']

/-- C1 counterexample: a per-run failure that is not a `CollisionError`
(here: the very first control step raises an unexpected exception) is NOT
caught inside `single_agent_simulation`: the call produces no output row at
all, the exception propagates out of the worker, contradicting the claim
that any per-run failure yields a conservative `collision_free = false`
row. -/
theorem numSteps_five : numSteps 5 = 100 := by
  unfold numSteps
  norm_num
  rfl

theorem c1_unexpected_failure_escapes_counterexample :
    single_agent_simulation 1 2 3 4 5 (1/10) 5 (fun _ => StepEv.failure) =
      SimResult.exn := by
  unfold single_agent_simulation
  rw [numSteps_five]
  rfl

theorem c1_only_collision_error_witness :
    (0 < numSteps 5 ∧
      single_agent_simulation 6 7 8 9 10 (1/10) 5 (fun _ => StepEv.failure) =
        SimResult.exn) ∧
    ∃ sl dl, single_agent_simulation 6 7 8 9 10 (1/10) 5 (fun _ => StepEv.collision) =
      SimResult.row 6 7 8 9 10 false sl dl (((0 : ℕ) : ℚ) * (1 / 20)) := by
  have h0 : 0 < numSteps 5 := by rw [numSteps_five]; norm_num
  refine ⟨⟨h0, ?_⟩, ?_⟩
  · exact (c1_only_collision_error_is_caught 6 7 8 9 10 (1/10) 5 (fun _ => StepEv.failure)).1
      0 h0 rfl (fun i hi => absurd hi (Nat.not_lt_zero i))
  · exact (c1_only_collision_error_is_caught 6 7 8 9 10 (1/10) 5 (fun _ => StepEv.collision)).2
      0 h0 rfl (fun i hi => absurd hi (Nat.not_lt_zero i))

/-! ### Sweep completeness: the grid and its batches -/

theorem batchSlice_succ (l : List α) (b i : ℕ) :
    batchSlice l b (i + 1) = batchSlice (l.drop b) b i := by
  unfold batchSlice
  rw [List.drop_drop]
  congr 2
  ring

theorem total_batches_succ {b len : ℕ} (hb : 1 ≤ b) (hlen : 1 ≤ len) :
    total_batches len b = total_batches (len - b) b + 1 := by
  unfold total_batches
  rcases le_or_lt len b with hle | hlt
  · rcases eq_or_lt_of_le hle with rfl | hlt'
    · simp [Nat.div_self (by omega : 0 < len), Nat.mod_self]
    · rw [Nat.div_eq_of_lt hlt', Nat.mod_eq_of_lt hlt']
      have : len - b = 0 := by omega
      simp [this, Nat.zero_div, Nat.zero_mod]
      omega
  · rw [Nat.div_eq_sub_div (by omega) hlt.le, Nat.mod_eq_sub_mod hlt.le]
    omega

theorem batches_flatten {α : Type _} {b : ℕ} (hb : 1 ≤ b) (l : List α) :
    (batches l b).flatten = l := by
  have H : ∀ n (l : List α), l.length ≤ n → (batches l b).flatten = l := by
    intro n
    induction n with
    | zero =>
        intro l hl
        have : l = [] := List.eq_nil_of_length_eq_zero (by omega)
        subst this
        simp [batches, total_batches]
    | succ n ih =>
        intro l hl
        rcases hnil : l with _ | ⟨x, xs⟩
        · simp [batches, total_batches]
        · rw [← hnil]
          have hlen1 : 1 ≤ l.length := by rw [hnil]; simp
          unfold batches
          rw [total_batches_succ hb hlen1, List.range_succ_eq_map, List.map_cons,
            List.map_map]
          have hmap : (List.range (total_batches (l.length - b) b)).map
              (batchSlice l b ∘ Nat.succ) =
              (List.range (total_batches (l.length - b) b)).map
                (batchSlice (l.drop b) b) := by
            apply List.map_congr_left
            intro i _
            simp only [Function.comp]
            exact batchSlice_succ l b i
          rw [hmap]
          have hdroplen : (l.drop b).length = l.length - b := List.length_drop b l
          have hrec : (batches (l.drop b) b).flatten = l.drop b := by
            apply ih
            rw [hdroplen]
            omega
          unfold batches at hrec
          rw [← hdroplen, List.flatten_cons, hrec]
          have h0 : batchSlice l b 0 = l.take b := by
            unfold batchSlice
            simp
          rw [h0, List.take_append_drop]
  exact H l.length l (le_refl _)

theorem linspace_length (a b : ℝ) (n : ℕ) : (linspace a b n).length = n := by
  unfold linspace
  split
  · simp [*]
  · split
    · simp [*]
    · rw [List.length_map, List.length_range]

theorem linspace_nodup {a b : ℝ} (h : a < b) (n : ℕ) : (linspace a b n).Nodup := by
  unfold linspace
  split
  · simp
  · split
    · simp
    · rename_i h0 h1
      have h2 : 2 ≤ n := by omega
      have hn1 : (0:ℝ) < (n:ℝ) - 1 := by
        have : (2:ℝ) ≤ (n:ℝ) := by exact_mod_cast h2
        linarith
      have hs : (0:ℝ) < (b - a) / ((n:ℝ) - 1) := div_pos (by linarith) hn1
      have hinj : Function.Injective
          (fun i : ℕ => a + (i : ℝ) * ((b - a) / ((n : ℝ) - 1))) := by
        intro i j hij
        simp only at hij
        have h2' := add_left_cancel hij
        have h3' := mul_right_cancel₀ (ne_of_gt hs) h2'
        exact_mod_cast h3'
      exact List.Nodup.map hinj (List.nodup_range n)

theorem parameter_space_eq_product (n : ℕ) :
    parameter_space n =
      distance_range n ×ˢ (velocity_range n ×ˢ (theta_range n ×ˢ
        (gamma1_range n ×ˢ gamma2_range n))) := by
  unfold parameter_space
  simp only [SProd.sprod, List.product, List.map_flatMap, List.map_map,
    Function.comp]
  rfl

theorem parameter_space_length (n : ℕ) : (parameter_space n).length = n ^ 5 := by
  rw [parameter_space_eq_product]
  simp only [List.length_product, distance_range, velocity_range, theta_range,
    gamma1_range, gamma2_range, linspace_length]
  ring

theorem parameter_space_nodup (n : ℕ) : (parameter_space n).Nodup := by
  rw [parameter_space_eq_product]
  have hpi : (0.001 : ℝ) < Real.pi / 2 := by
    have := Real.pi_gt_three
    linarith
  exact List.Nodup.product (linspace_nodup (by norm_num) n)
    (List.Nodup.product (linspace_nodup (by norm_num) n)
      (List.Nodup.product (linspace_nodup hpi n)
        (List.Nodup.product (linspace_nodup (by norm_num) n)
          (linspace_nodup (by norm_num) n))))

/-- C2: for every `samples_per_dimension n ≥ 1` and `batch_size b ≥ 1`,
`generate_data` enumerates the full Cartesian product of the five 1-D grids
(`n^5` parameter tuples), and the batch slices
`[i*b, (i+1)*b)` for `i = 0 .. total_batches - 1` partition that list
exactly (their concatenation is the parameter list itself, so every grid
point is dispatched in exactly one batch), giving `n^5` result rows whose
parameter tuples are pairwise distinct grid points. -/
theorem c2_grid_batches_partition (n bsz : ℕ) (hn : 1 ≤ n) (hb : 1 ≤ bsz) :
    (batches (parameter_space n) bsz).flatten = parameter_space n ∧
    (parameter_space n).length = n ^ 5 ∧
    (parameter_space n).Nodup :=
  ⟨batches_flatten hb _, parameter_space_length n, parameter_space_nodup n⟩

theorem c2_grid_batches_witness :
    (batches (parameter_space 2) 3).flatten = parameter_space 2 ∧
    (parameter_space 2).length = 2 ^ 5 ∧
    (parameter_space 2).Nodup :=
  c2_grid_batches_partition 2 3 (by norm_num) (by norm_num)

/-! ### Extreme-point selection: properties of argmin/argmax -/

theorem argminPair_spec : ∀ (rest : List ℝ) (i : ℕ) (best : ℕ × ℝ),
    (argminPair i best rest = best ∨
      ∃ j < rest.length, argminPair i best rest = (i + j, rest.getD j 0)) ∧
    (argminPair i best rest).2 ≤ best.2 ∧
    ∀ x ∈ rest, (argminPair i best rest).2 ≤ x := by
  intro rest
  induction rest with
  | nil =>
      intro i best
      exact ⟨Or.inl rfl, le_refl _, by simp⟩
  | cons a rest ih =>
      intro i best
      by_cases h : a < best.2
      · have hstep : argminPair i best (a :: rest) = argminPair (i + 1) (i, a) rest := by
          simp only [argminPair, if_pos h]
        obtain ⟨hloc, hval, hall⟩ := ih (i + 1) (i, a)
        refine ⟨?_, ?_, ?_⟩
        · rcases hloc with heq | ⟨j, hj, heq⟩
          · right
            exact ⟨0, by simp, by rw [hstep, heq]; simp⟩
          · right
            refine ⟨j + 1, by simp; omega, ?_⟩
            rw [hstep, heq, List.getD_cons_succ]
            congr 1
            omega
        · rw [hstep]
          exact le_trans hval (le_of_lt h)
        · intro x hx
          rcases List.mem_cons.mp hx with rfl | hx'
          · rw [hstep]; exact hval
          · rw [hstep]; exact hall x hx'
      · have hstep : argminPair i best (a :: rest) = argminPair (i + 1) best rest := by
          simp only [argminPair, if_neg h]
        obtain ⟨hloc, hval, hall⟩ := ih (i + 1) best
        refine ⟨?_, ?_, ?_⟩
        · rcases hloc with heq | ⟨j, hj, heq⟩
          · left; rw [hstep, heq]
          · right
            refine ⟨j + 1, by simp; omega, ?_⟩
            rw [hstep, heq, List.getD_cons_succ]
            congr 1
            omega
        · rw [hstep]; exact hval
        · intro x hx
          rcases List.mem_cons.mp hx with rfl | hx'
          · rw [hstep]; exact le_trans hval (not_lt.mp h)
          · rw [hstep]; exact hall x hx'

theorem argmaxPair_spec : ∀ (rest : List ℝ) (i : ℕ) (best : ℕ × ℝ),
    (argmaxPair i best rest = best ∨
      ∃ j < rest.length, argmaxPair i best rest = (i + j, rest.getD j 0)) ∧
    best.2 ≤ (argmaxPair i best rest).2 ∧
    ∀ x ∈ rest, x ≤ (argmaxPair i best rest).2 := by
  intro rest
  induction rest with
  | nil =>
      intro i best
      exact ⟨Or.inl rfl, le_refl _, by simp⟩
  | cons a rest ih =>
      intro i best
      by_cases h : best.2 < a
      · have hstep : argmaxPair i best (a :: rest) = argmaxPair (i + 1) (i, a) rest := by
          simp only [argmaxPair, if_pos h]
        obtain ⟨hloc, hval, hall⟩ := ih (i + 1) (i, a)
        refine ⟨?_, ?_, ?_⟩
        · rcases hloc with heq | ⟨j, hj, heq⟩
          · right
            exact ⟨0, by simp, by rw [hstep, heq]; simp⟩
          · right
            refine ⟨j + 1, by simp; omega, ?_⟩
            rw [hstep, heq, List.getD_cons_succ]
            congr 1
            omega
        · rw [hstep]
          exact le_trans (le_of_lt h) hval
        · intro x hx
          rcases List.mem_cons.mp hx with rfl | hx'
          · rw [hstep]; exact hval
          · rw [hstep]; exact hall x hx'
      · have hstep : argmaxPair i best (a :: rest) = argmaxPair (i + 1) best rest := by
          simp only [argmaxPair, if_neg h]
        obtain ⟨hloc, hval, hall⟩ := ih (i + 1) best
        refine ⟨?_, ?_, ?_⟩
        · rcases hloc with heq | ⟨j, hj, heq⟩
          · left; rw [hstep, heq]
          · right
            refine ⟨j + 1, by simp; omega, ?_⟩
            rw [hstep, heq, List.getD_cons_succ]
            congr 1
            omega
        · rw [hstep]; exact hval
        · intro x hx
          rcases List.mem_cons.mp hx with rfl | hx'
          · rw [hstep]; exact le_trans (not_lt.mp h) hval
          · rw [hstep]; exact hall x hx'

theorem argminIdx_spec (l : List ℝ) (hne : l ≠ []) :
    argminIdx l < l.length ∧ ∀ x ∈ l, l.getD (argminIdx l) 0 ≤ x := by
  rcases l with _ | ⟨a, rest⟩
  · exact absurd rfl hne
  · obtain ⟨hloc, hval, hall⟩ := argminPair_spec rest 1 (0, a)
    have hgd : (a :: rest).getD (argminPair 1 (0, a) rest).1 0 =
        (argminPair 1 (0, a) rest).2 ∧ (argminPair 1 (0, a) rest).1 < (a :: rest).length := by
      rcases hloc with heq | ⟨j, hj, heq⟩
      · rw [heq]
        exact ⟨rfl, by simp⟩
      · rw [heq]
        refine ⟨?_, by simp; omega⟩
        have : 1 + j = j + 1 := by omega
        simp only [this, List.getD_cons_succ]
    refine ⟨hgd.2, ?_⟩
    intro x hx
    show (a :: rest).getD (argminPair 1 (0, a) rest).1 0 ≤ x
    rw [hgd.1]
    rcases List.mem_cons.mp hx with rfl | hx'
    · exact hval
    · exact hall x hx'

theorem argmaxIdx_spec (l : List ℝ) (hne : l ≠ []) :
    argmaxIdx l < l.length ∧ ∀ x ∈ l, x ≤ l.getD (argmaxIdx l) 0 := by
  rcases l with _ | ⟨a, rest⟩
  · exact absurd rfl hne
  · obtain ⟨hloc, hval, hall⟩ := argmaxPair_spec rest 1 (0, a)
    have hgd : (a :: rest).getD (argmaxPair 1 (0, a) rest).1 0 =
        (argmaxPair 1 (0, a) rest).2 ∧ (argmaxPair 1 (0, a) rest).1 < (a :: rest).length := by
      rcases hloc with heq | ⟨j, hj, heq⟩
      · rw [heq]
        exact ⟨rfl, by simp⟩
      · rw [heq]
        refine ⟨?_, by simp; omega⟩
        have : 1 + j = j + 1 := by omega
        simp only [this, List.getD_cons_succ]
    refine ⟨hgd.2, ?_⟩
    intro x hx
    show x ≤ (a :: rest).getD (argmaxPair 1 (0, a) rest).1 0
    rw [hgd.1]
    rcases List.mem_cons.mp hx with rfl | hx'
    · exact hval
    · exact hall x hx'

/-! ### Angle normalization and concrete arctangent values -/

theorem rmod_eq_mul_fract (x m : ℝ) (hm : m ≠ 0) :
    rmod x m = m * Int.fract (x / m) := by
  unfold rmod Int.fract
  field_simp

theorem rmod_nonneg_lt {x m : ℝ} (hm : 0 < m) :
    0 ≤ rmod x m ∧ rmod x m < m := by
  rw [rmod_eq_mul_fract x m hm.ne']
  constructor
  · exact mul_nonneg hm.le (Int.fract_nonneg _)
  · calc m * Int.fract (x / m) < m * 1 :=
        (mul_lt_mul_left hm).mpr (Int.fract_lt_one _)
    _ = m := mul_one m

theorem normalize_angle_mem_Ico (a : ℝ) :
    -Real.pi ≤ normalize_angle a ∧ normalize_angle a < Real.pi := by
  obtain ⟨h0, h1⟩ := rmod_nonneg_lt (x := a + Real.pi) Real.two_pi_pos
  unfold normalize_angle
  constructor <;> [linarith; linarith]

theorem rmod_eq_self {x m : ℝ} (h0 : 0 ≤ x) (h1 : x < m) : rmod x m = x := by
  have hm : 0 < m := lt_of_le_of_lt h0 h1
  have hfl : ⌊x / m⌋ = 0 := by
    rw [Int.floor_eq_zero_iff]
    constructor
    · exact div_nonneg h0 hm.le
    · exact (div_lt_one hm).mpr h1
  unfold rmod
  rw [hfl]
  simp

theorem rmod_self {m : ℝ} (hm : m ≠ 0) : rmod m m = 0 := by
  unfold rmod
  rw [div_self hm, Int.floor_one]
  simp

theorem normalize_angle_pi : normalize_angle Real.pi = -Real.pi := by
  unfold normalize_angle
  have h : Real.pi + Real.pi = 2 * Real.pi := by ring
  rw [h, rmod_self Real.two_pi_pos.ne']
  ring

theorem normalize_angle_zero : normalize_angle 0 = 0 := by
  unfold normalize_angle
  rw [zero_add, rmod_eq_self Real.pi_pos.le (by linarith [Real.pi_pos])]
  ring

theorem normalize_angle_half_pi : normalize_angle (Real.pi / 2) = Real.pi / 2 := by
  unfold normalize_angle
  rw [rmod_eq_self (by linarith [Real.pi_pos]) (by linarith [Real.pi_pos])]
  ring

theorem rmod_zero (m : ℝ) : rmod 0 m = 0 := by
  unfold rmod
  simp

theorem normalize_angle_spec_pi : normalize_angle_spec Real.pi = Real.pi := by
  unfold normalize_angle_spec
  rw [sub_self, rmod_zero]
  ring

theorem normalize_angle_spec_zero : normalize_angle_spec 0 = 0 := by
  unfold normalize_angle_spec
  rw [sub_zero, rmod_eq_self Real.pi_pos.le (by linarith [Real.pi_pos])]
  ring

theorem normalize_angle_spec_half_pi :
    normalize_angle_spec (Real.pi / 2) = Real.pi / 2 := by
  unfold normalize_angle_spec
  have h : Real.pi - Real.pi / 2 = Real.pi / 2 := by ring
  rw [h, rmod_eq_self (by linarith [Real.pi_pos]) (by linarith [Real.pi_pos])]
  ring

theorem atan2_zero_one : atan2 0 1 = 0 := by
  have h : (⟨1, 0⟩ : ℂ) = 1 := by
    apply Complex.ext <;> simp
  unfold atan2
  rw [h, Complex.arg_one]

theorem atan2_zero_neg_one : atan2 0 (-1) = Real.pi := by
  have h : (⟨-1, 0⟩ : ℂ) = -1 := by
    apply Complex.ext <;> simp
  unfold atan2
  rw [h, Complex.arg_neg_one]

theorem atan2_one_zero : atan2 1 0 = Real.pi / 2 := by
  have h : (⟨0, 1⟩ : ℂ) = Complex.I := by
    apply Complex.ext <;> simp
  unfold atan2
  rw [h, Complex.arg_I]

theorem argminIdx_code_angles : argminIdx [-Real.pi, 0, Real.pi / 2] = 0 := by
  have c1 : ¬ ((0:ℝ) < -Real.pi) := by linarith [Real.pi_pos]
  have c2 : ¬ (Real.pi / 2 < -Real.pi) := by linarith [Real.pi_pos]
  simp only [argminIdx, argminPair]
  rw [if_neg c1, if_neg c2]

theorem argmaxIdx_code_angles : argmaxIdx [-Real.pi, 0, Real.pi / 2] = 2 := by
  have c1 : (-Real.pi : ℝ) < 0 := by linarith [Real.pi_pos]
  have c2 : (0:ℝ) < Real.pi / 2 := by linarith [Real.pi_pos]
  simp only [argmaxIdx, argmaxPair]
  rw [if_pos c1, if_pos c2]

theorem argminIdx_spec_angles : argminIdx [Real.pi, 0, Real.pi / 2] = 1 := by
  have c1 : (0:ℝ) < Real.pi := Real.pi_pos
  have c2 : ¬ (Real.pi / 2 < 0) := by linarith [Real.pi_pos]
  simp only [argminIdx, argminPair]
  rw [if_pos c1, if_neg c2]

theorem argmaxIdx_spec_angles : argmaxIdx [Real.pi, 0, Real.pi / 2] = 0 := by
  have c1 : ¬ ((Real.pi : ℝ) < 0) := by linarith [Real.pi_pos]
  have c2 : ¬ (Real.pi < Real.pi / 2) := by linarith [Real.pi_pos]
  simp only [argmaxIdx, argmaxPair]
  rw [if_neg c1, if_neg c2]

/-- C7 counterexample: the source normalizes angles with
`(a + π) % (2π) - π`, which lands in `[-π, π)` and sends the
directly-behind angle `π` to `-π`, whereas the claim's normalization to
`(-π, π]` keeps it at `π`.  For the robot at the origin with heading `0`
and detected points `(-1,0)`, `(1,0)`, `(0,1)`, the source selects
`(-1,0)` as left-most and `(0,1)` as right-most, while the claim's
described computation selects `(1,0)` and `(-1,0)`: different extreme
pairs, hence a different obstacle estimate. -/
theorem c7_normalization_counterexample :
    find_extreme_points ⟨0, 0, 0, ∅, [], none⟩ [(-1, 0), (1, 0), (0, 1)] =
      ((-1, 0), (0, 1)) ∧
    find_extreme_points_spec ⟨0, 0, 0, ∅, [], none⟩ [(-1, 0), (1, 0), (0, 1)] =
      ((1, 0), (-1, 0)) ∧
    ((((-1 : ℝ), (0 : ℝ)), ((0 : ℝ), (1 : ℝ))) ≠
      (((1 : ℝ), (0 : ℝ)), ((-1 : ℝ), (0 : ℝ)))) := by
  refine ⟨?_, ?_, by norm_num⟩
  · have hang : ([(-1, 0), (1, 0), (0, 1)] : List (ℝ × ℝ)).map
        (point_angle ⟨0, 0, 0, ∅, [], none⟩) = [-Real.pi, 0, Real.pi / 2] := by
      simp only [List.map_cons, List.map_nil, point_angle]
      norm_num [Real.sin_zero, Real.cos_zero, atan2_zero_one, atan2_zero_neg_one,
        atan2_one_zero, normalize_angle_pi, normalize_angle_zero,
        normalize_angle_half_pi]
    simp only [find_extreme_points]
    rw [hang, argminIdx_code_angles, argmaxIdx_code_angles]
    rfl
  · have hang : ([(-1, 0), (1, 0), (0, 1)] : List (ℝ × ℝ)).map
        (fun p : ℝ × ℝ => normalize_angle_spec
          (atan2 (p.2 - (0:ℝ)) (p.1 - (0:ℝ)) -
            atan2 (Real.sin 0) (Real.cos 0))) = [Real.pi, 0, Real.pi / 2] := by
      simp only [List.map_cons, List.map_nil]
      norm_num [Real.sin_zero, Real.cos_zero, atan2_zero_one, atan2_zero_neg_one,
        atan2_one_zero, normalize_angle_spec_pi, normalize_angle_spec_zero,
        normalize_angle_spec_half_pi]
    simp only [find_extreme_points_spec]
    rw [hang, argminIdx_spec_angles, argmaxIdx_spec_angles]
    rfl

theorem getD_eq_getElem_of_lt {α : Type _} (l : List α) (d : α) {n : ℕ}
    (h : n < l.length) : l.getD n d = l[n] := by
  rw [List.getD_eq_getElem?_getD, List.getElem?_eq_getElem h]
  rfl

/-- C7 (amended): given a non-empty list of detected points, the detection
computes for each point the signed angle of the robot-to-point vector
relative to the robot's heading vector, normalized to the half-open
interval `[-π, π)` (not `(-π, π]`), selects the two angular extreme points
(minimal and maximal normalized angle, both attained at list members), and
returns an obstacle estimate whose center is the midpoint of those two
points and whose radius is half the Euclidean distance between them. -/
theorem c7_extreme_points_and_estimate (st : RobotState) (pts : List (ℝ × ℝ))
    (hne : pts ≠ []) :
    (find_extreme_points st pts).1 ∈ pts ∧
    (find_extreme_points st pts).2 ∈ pts ∧
    (∀ p ∈ pts, point_angle st (find_extreme_points st pts).1 ≤ point_angle st p) ∧
    (∀ p ∈ pts, point_angle st p ≤ point_angle st (find_extreme_points st pts).2) ∧
    (∀ a : ℝ, -Real.pi ≤ normalize_angle a ∧ normalize_angle a < Real.pi) ∧
    obstacle_estimate st pts =
      (((find_extreme_points st pts).1.1 + (find_extreme_points st pts).2.1) / 2,
       ((find_extreme_points st pts).1.2 + (find_extreme_points st pts).2.2) / 2,
       Real.sqrt
         (((find_extreme_points st pts).2.1 - (find_extreme_points st pts).1.1) ^ 2 +
          ((find_extreme_points st pts).2.2 - (find_extreme_points st pts).1.2) ^ 2) / 2) := by
  have hanne : pts.map (point_angle st) ≠ [] := by
    simpa [List.map_eq_nil_iff] using hne
  obtain ⟨hminlt, hminle⟩ := argminIdx_spec (pts.map (point_angle st)) hanne
  obtain ⟨hmaxlt, hmaxge⟩ := argmaxIdx_spec (pts.map (point_angle st)) hanne
  have hlen : (pts.map (point_angle st)).length = pts.length := List.length_map _ _
  have hminlt' : argminIdx (pts.map (point_angle st)) < pts.length := by
    rw [← hlen]; exact hminlt
  have hmaxlt' : argmaxIdx (pts.map (point_angle st)) < pts.length := by
    rw [← hlen]; exact hmaxlt
  have hL : (find_extreme_points st pts).1 =
      pts.getD (argminIdx (pts.map (point_angle st))) (0, 0) := rfl
  have hR : (find_extreme_points st pts).2 =
      pts.getD (argmaxIdx (pts.map (point_angle st))) (0, 0) := rfl
  have hLval : point_angle st (find_extreme_points st pts).1 =
      (pts.map (point_angle st)).getD (argminIdx (pts.map (point_angle st))) 0 := by
    rw [hL, getD_eq_getElem_of_lt _ _ hminlt', getD_eq_getElem_of_lt _ _ hminlt,
      List.getElem_map]
  have hRval : point_angle st (find_extreme_points st pts).2 =
      (pts.map (point_angle st)).getD (argmaxIdx (pts.map (point_angle st))) 0 := by
    rw [hR, getD_eq_getElem_of_lt _ _ hmaxlt', getD_eq_getElem_of_lt _ _ hmaxlt,
      List.getElem_map]
  refine ⟨?_, ?_, ?_, ?_, normalize_angle_mem_Ico, rfl⟩
  · rw [hL, getD_eq_getElem_of_lt _ _ hminlt']
    exact List.getElem_mem _
  · rw [hR, getD_eq_getElem_of_lt _ _ hmaxlt']
    exact List.getElem_mem _
  · intro p hp
    rw [hLval]
    exact hminle _ (List.mem_map_of_mem _ hp)
  · intro p hp
    rw [hRval]
    exact hmaxge _ (List.mem_map_of_mem _ hp)

theorem c7_extreme_points_witness :
    (([((1:ℝ), (0:ℝ))] : List (ℝ × ℝ)) ≠ []) ∧
    ((find_extreme_points ⟨0, 0, 0, ∅, [], none⟩ [((1:ℝ), (0:ℝ))]).1 ∈
        [((1:ℝ), (0:ℝ))] ∧
      (find_extreme_points ⟨0, 0, 0, ∅, [], none⟩ [((1:ℝ), (0:ℝ))]).2 ∈
        [((1:ℝ), (0:ℝ))] ∧
      (∀ p ∈ [((1:ℝ), (0:ℝ))],
        point_angle ⟨0, 0, 0, ∅, [], none⟩
            (find_extreme_points ⟨0, 0, 0, ∅, [], none⟩ [((1:ℝ), (0:ℝ))]).1 ≤
          point_angle ⟨0, 0, 0, ∅, [], none⟩ p) ∧
      (∀ p ∈ [((1:ℝ), (0:ℝ))],
        point_angle ⟨0, 0, 0, ∅, [], none⟩ p ≤
          point_angle ⟨0, 0, 0, ∅, [], none⟩
            (find_extreme_points ⟨0, 0, 0, ∅, [], none⟩ [((1:ℝ), (0:ℝ))]).2) ∧
      (∀ a : ℝ, -Real.pi ≤ normalize_angle a ∧ normalize_angle a < Real.pi) ∧
      obstacle_estimate ⟨0, 0, 0, ∅, [], none⟩ [((1:ℝ), (0:ℝ))] =
        (((find_extreme_points ⟨0, 0, 0, ∅, [], none⟩ [((1:ℝ), (0:ℝ))]).1.1 +
            (find_extreme_points ⟨0, 0, 0, ∅, [], none⟩ [((1:ℝ), (0:ℝ))]).2.1) / 2,
         ((find_extreme_points ⟨0, 0, 0, ∅, [], none⟩ [((1:ℝ), (0:ℝ))]).1.2 +
            (find_extreme_points ⟨0, 0, 0, ∅, [], none⟩ [((1:ℝ), (0:ℝ))]).2.2) / 2,
         Real.sqrt
           (((find_extreme_points ⟨0, 0, 0, ∅, [], none⟩ [((1:ℝ), (0:ℝ))]).2.1 -
               (find_extreme_points ⟨0, 0, 0, ∅, [], none⟩ [((1:ℝ), (0:ℝ))]).1.1) ^ 2 +
            ((find_extreme_points ⟨0, 0, 0, ∅, [], none⟩ [((1:ℝ), (0:ℝ))]).2.2 -
               (find_extreme_points ⟨0, 0, 0, ∅, [], none⟩ [((1:ℝ), (0:ℝ))]).1.2) ^ 2) / 2)) :=
  ⟨by simp,
    c7_extreme_points_and_estimate ⟨0, 0, 0, ∅, [], none⟩ [((1:ℝ), (0:ℝ))] (by simp)⟩

/-! ### Closest-obstacle-first detection -/

theorem first_detection_spec (K : ShapelyOracle) (st : RobotState) (m : ℝ) :
    ∀ l : List Obstacle,
      (first_detection K st m l = [] ∧ ∀ o ∈ l, front_points K st o m = []) ∨
      (∃ pre o suf, l = pre ++ o :: suf ∧
        (∀ o' ∈ pre, front_points K st o' m = []) ∧
        front_points K st o m ≠ [] ∧
        first_detection K st m l = front_points K st o m) := by
  intro l
  induction l with
  | nil => exact Or.inl ⟨rfl, by simp⟩
  | cons o rest ih =>
      by_cases h : (front_points K st o m).isEmpty = true
      · have hfo : front_points K st o m = [] := List.isEmpty_iff.mp h
        have hstep : first_detection K st m (o :: rest) = first_detection K st m rest := by
          simp only [first_detection, if_pos h]
        rcases ih with ⟨h1, h2⟩ | ⟨pre, o', suf, heq, hpre, hone, hval⟩
        · left
          refine ⟨by rw [hstep]; exact h1, ?_⟩
          intro x hx
          rcases List.mem_cons.mp hx with rfl | hx'
          · exact hfo
          · exact h2 x hx'
        · right
          refine ⟨o :: pre, o', suf, by rw [heq]; rfl, ?_, hone, by rw [hstep]; exact hval⟩
          intro x hx
          rcases List.mem_cons.mp hx with rfl | hx'
          · exact hfo
          · exact hpre x hx'
      · right
        have hone : front_points K st o m ≠ [] := by
          intro hc
          exact h (by rw [hc]; rfl)
        refine ⟨[], o, rest, by simp, by simp, hone, ?_⟩
        simp only [first_detection, if_neg h]

/-- C6: for every non-empty list of ground-truth obstacles,
`detect_unknown_obs` scans the obstacles in order of increasing Euclidean
distance from the robot position and uses the front-facing boundary points
of the first obstacle that yields at least one such point — every strictly
closer obstacle yields none, and all farther obstacles are ignored (the
detected points come from that single obstacle, no fusion); if no obstacle
yields any detected point, it sets the detected estimate to `none` and
returns an empty detection for this step. -/
theorem c6_closest_visible_obstacle_wins (K : ShapelyOracle) (st : RobotState)
    (m : ℝ) (obsList : List Obstacle) (hne : obsList ≠ []) :
    ((detect_unknown_obs K st (some obsList) m).1 = none →
      (detect_unknown_obs K st (some obsList) m).2.detected_obs = none ∧
      (detect_unknown_obs K st (some obsList) m).2.detected_points = [] ∧
      ∀ o ∈ obsList, front_points K st o m = []) ∧
    (∀ est, (detect_unknown_obs K st (some obsList) m).1 = some est →
      ∃ o ∈ obsList, front_points K st o m ≠ [] ∧
        (detect_unknown_obs K st (some obsList) m).2.detected_points =
          front_points K st o m ∧
        est = obstacle_estimate st (front_points K st o m) ∧
        (detect_unknown_obs K st (some obsList) m).2.detected_obs = some est ∧
        ∀ o' ∈ obsList, obs_dist st o' < obs_dist st o →
          front_points K st o' m = []) := by
  have hperm : List.Perm
      (obsList.insertionSort fun o₁ o₂ => obs_dist st o₁ ≤ obs_dist st o₂)
      obsList := List.perm_insertionSort _ _
  haveI hTot : IsTotal Obstacle (fun o₁ o₂ => obs_dist st o₁ ≤ obs_dist st o₂) :=
    ⟨fun a b => le_total _ _⟩
  haveI hTrans : IsTrans Obstacle (fun o₁ o₂ => obs_dist st o₁ ≤ obs_dist st o₂) :=
    ⟨fun _ _ _ hab hbc => le_trans hab hbc⟩
  have hsorted := List.sorted_insertionSort
    (fun o₁ o₂ : Obstacle => obs_dist st o₁ ≤ obs_dist st o₂) obsList
  rcases first_detection_spec K st m
      (obsList.insertionSort fun o₁ o₂ => obs_dist st o₁ ≤ obs_dist st o₂) with
    ⟨hval, hall⟩ | ⟨pre, o, suf, hsplit, hpre, hone, hval⟩
  · have hres : detect_unknown_obs K st (some obsList) m =
        (none, { st with detected_points := [], detected_obs := none }) := by
      simp only [detect_unknown_obs, hval, List.isEmpty_nil, if_true]
    constructor
    · intro _
      refine ⟨by rw [hres], by rw [hres], ?_⟩
      intro x hx
      exact hall x (hperm.mem_iff.mpr hx)
    · intro est hest
      rw [hres] at hest
      simp at hest
  · have hne' : ¬ ((front_points K st o m).isEmpty = true) := by
      intro hc
      exact hone (List.isEmpty_iff.mp hc)
    have hres : detect_unknown_obs K st (some obsList) m =
        (some (obstacle_estimate st (front_points K st o m)),
         { st with detected_points := front_points K st o m,
                   detected_obs := some (obstacle_estimate st (front_points K st o m)) }) := by
      simp only [detect_unknown_obs, hval, if_neg hne']
    have homem : o ∈ obsList := by
      have hmem : o ∈ pre ++ o :: suf := by simp
      rw [← hsplit] at hmem
      exact hperm.mem_iff.mp hmem
    constructor
    · intro hnone
      rw [hres] at hnone
      simp at hnone
    · intro est hest
      rw [hres] at hest
      simp only [Option.some.injEq] at hest
      refine ⟨o, homem, hone, by rw [hres], hest.symm, ?_, ?_⟩
      · rw [hres, ← hest]
      · intro o' ho' hdist
        have ho's : o' ∈ pre ++ o :: suf := by
          rw [← hsplit]
          exact hperm.mem_iff.mpr ho'
        rcases List.mem_append.mp ho's with hpre' | hcons
        · exact hpre o' hpre'
        · rcases List.mem_cons.mp hcons with rfl | hsuf
          · exact absurd hdist (lt_irrefl _)
          · have hsorted' : List.Pairwise
                (fun o₁ o₂ => obs_dist st o₁ ≤ obs_dist st o₂) (pre ++ o :: suf) := by
              rw [← hsplit]
              exact hsorted
            obtain ⟨-, hpw2, -⟩ := List.pairwise_append.mp hsorted'
            have hoo' : obs_dist st o ≤ obs_dist st o' :=
              (List.pairwise_cons.mp hpw2).1 o' hsuf
            exact absurd hdist (not_lt.mpr hoo')

theorem c6_closest_visible_obstacle_witness :
    (([(⟨0, 0, 1⟩ : Obstacle)] : List Obstacle) ≠ []) ∧
    (let K : ShapelyOracle := ⟨fun _ _ _ => [], fun _ _ _ _ => false⟩
     let st : RobotState := ⟨0, 0, 0, ∅, [], none⟩
     let obsList : List Obstacle := [⟨0, 0, 1⟩]
     let m : ℝ := 1 / 20
     ((detect_unknown_obs K st (some obsList) m).1 = none →
       (detect_unknown_obs K st (some obsList) m).2.detected_obs = none ∧
       (detect_unknown_obs K st (some obsList) m).2.detected_points = [] ∧
       ∀ o ∈ obsList, front_points K st o m = []) ∧
     (∀ est, (detect_unknown_obs K st (some obsList) m).1 = some est →
       ∃ o ∈ obsList, front_points K st o m ≠ [] ∧
         (detect_unknown_obs K st (some obsList) m).2.detected_points =
           front_points K st o m ∧
         est = obstacle_estimate st (front_points K st o m) ∧
         (detect_unknown_obs K st (some obsList) m).2.detected_obs = some est ∧
         ∀ o' ∈ obsList, obs_dist st o' < obs_dist st o →
           front_points K st o' m = [])) :=
  ⟨by simp,
    c6_closest_visible_obstacle_wins ⟨fun _ _ _ => [], fun _ _ _ _ => false⟩
      ⟨0, 0, 0, ∅, [], none⟩ (1 / 20) [⟨0, 0, 1⟩] (by simp)⟩

theorem c3_safety_loss_witness :
    (∀ i : ℕ, (0:ℚ) ≤ (fun _ : ℕ => (1:ℚ)) i) ∧
    ((∀ k : ℕ, 0 ≤ (accAfter (1/20) (1/10) (fun _ => 0) (fun _ => 0)
        (fun _ : ℕ => (1:ℚ)) k).safetyLoss) ∧
     (∀ k : ℕ, (accAfter (1/20) (1/10) (fun _ => 0) (fun _ => 0)
        (fun _ : ℕ => (1:ℚ)) k).safetyLoss ≤
       (accAfter (1/20) (1/10) (fun _ => 0) (fun _ => 0)
        (fun _ : ℕ => (1:ℚ)) (k+1)).safetyLoss) ∧
     (∀ k : ℕ, ∀ i < k, (fun _ : ℕ => (1:ℚ)) i ≤
       (accAfter (1/20) (1/10) (fun _ => 0) (fun _ => 0)
        (fun _ : ℕ => (1:ℚ)) k).safetyLoss) ∧
     (∀ k : ℕ, 1 ≤ k → ∃ i < k,
       (accAfter (1/20) (1/10) (fun _ => 0) (fun _ => 0)
        (fun _ : ℕ => (1:ℚ)) k).safetyLoss = (fun _ : ℕ => (1:ℚ)) i)) :=
  ⟨fun _ => zero_le_one,
    c3_safety_loss_running_max (1/10) (fun _ => 0) (fun _ => 0) (fun _ : ℕ => (1:ℚ))
      (fun _ => zero_le_one)⟩
